import Mathlib

/-!
Verification of the tridiagonal-decomposition kernel
(`Eigen/src/Eigenvalues/Tridiagonalization.h`).

The development shallowly embeds the header's algorithms:

* `tridiagStep` / `tridiagIters` / `tridiagRun` — the loop body and outer loop of
  the general in-place reduction `ei_tridiagonalization_inplace(matA, hCoeffs)`;
* `eiInplace` — the 2-argument entry point together with its `ei_assert` checks;
* `selGeneral`, `sel3`, `sel1` — the three `ei_tridiagonalization_inplace_selector`
  instantiations (general, 3x3, and 1x1);
* `eiInplace4` — the 4-argument dispatcher with its `ei_assert` check;
* `Tri` — the `Tridiagonalization` facade (constructor, `compute`, the gated
  read accessors, and `matrixT`).

Matrices are embedded as total functions `ℕ → ℕ → K` bundled with explicit row
and column counts (`MatBuf`); vectors likewise (`VecBuf`).  Scalars are any
commutative ring together with a record `ScalarOps` supplying the external
scalar operations (`ei_conj`, `ei_real`, scalar inverse) that the header takes
from Eigen's numeric traits.  External collaborators that the header calls but
whose code is not part of this repository (the Householder reflector primitive,
the selfadjoint matrix-vector product, the selfadjoint rank-2 update, `ei_sqrt`,
`ei_isMuchSmallerThan`) are modelled from the specification; each such
definition is marked `Modelled from the spec:` in its doc comment.
-/

/-- Modelled from the spec: the scalar operations the kernel obtains from the
scalar type's numeric traits — `ei_conj` (complex conjugation; the identity on
real scalars), `ei_real` (real part; the identity on real scalars) and the
scalar multiplicative inverse used for divisions.  These are external
collaborators of the header, not code under `src/`. -/
structure ScalarOps (K : Type) where
  conj : K → K
  re : K → K
  inv : K → K

/-- Modelled from the spec: `ei_abs2`, the squared absolute value of a scalar,
`|x|^2 = re (x * conj x)`. -/
def abs2 {K : Type} [Mul K] (ops : ScalarOps K) (x : K) : K :=
  ops.re (x * ops.conj x)

/-- A dense matrix buffer: explicit dimensions plus a total entry function.
Only indexes below the bounds are meaningful. -/
structure MatBuf (K : Type) where
  rows : ℕ
  cols : ℕ
  entry : ℕ → ℕ → K

/-- A dense vector buffer: explicit size plus a total entry function. -/
structure VecBuf (K : Type) where
  size : ℕ
  entry : ℕ → K

/-- The mutable state threaded through the general reduction loop: the square
matrix buffer `matA` and the coefficient vector `hCoeffs` (entry functions;
the enclosing wrappers carry the sizes). -/
structure TriState (K : Type) where
  matA : ℕ → ℕ → K
  hc : ℕ → K

section Reduction

variable {K : Type} [CommRing K] [DecidableEq K]

/-- The result of the external reflector primitive `makeHouseholderInPlace`
applied to `matA.col(i).tail(n-i-1)`: the new tail contents (entries `1..r-1`
are the essential part of the reflector; entry `0` is left in place by the
primitive), the coefficient `h` and the value `beta`. -/
def stepHouse (house : ℕ → (ℕ → K) → (ℕ → K) × K × K) (n i : ℕ)
    (st : TriState K) : (ℕ → K) × K × K :=
  house (n - i - 1) (fun j => st.matA (i + 1 + j) i)

/-- The matrix buffer after `makeHouseholderInPlace` has written the essential
part of the reflector back into rows `i+2..n-1` of column `i` and
`matA.col(i).coeffRef(i+1) = 1` has planted the implicit leading one. -/
def stepA1 (house : ℕ → (ℕ → K) → (ℕ → K) × K × K) (n i : ℕ)
    (st : TriState K) : ℕ → ℕ → K := fun a b =>
  if a = i + 1 ∧ b = i then 1
  else if b = i ∧ i + 2 ≤ a ∧ a < n then
    (stepHouse house n i st).1 (a - (i + 1))
  else st.matA a b

/-- The reflector vector `v = matA.col(i).tail(n-i-1)`, read back from the
buffer (its leading entry is the planted 1). -/
def stepV (house : ℕ → (ℕ → K) → (ℕ → K) × K × K) (n i : ℕ)
    (st : TriState K) : ℕ → K := fun j =>
  stepA1 house n i st (i + 1 + j) i

/-- Modelled from the spec: the selfadjoint (lower) view of the trailing
`(n-i-1) x (n-i-1)` block — the lower triangle is read as stored and mirrored
into the upper triangle with conjugation. -/
def stepS (ops : ScalarOps K) (house : ℕ → (ℕ → K) → (ℕ → K) × K × K)
    (n i : ℕ) (st : TriState K) : ℕ → ℕ → K := fun a b =>
  if b ≤ a then stepA1 house n i st (i + 1 + a) (i + 1 + b)
  else ops.conj (stepA1 house n i st (i + 1 + b) (i + 1 + a))

/-- The symmetric matrix-vector product
`hCoeffs.tail(r) = S.selfadjointView<Lower>() * (conj(h) * v)`. -/
def stepP0 (ops : ScalarOps K) (house : ℕ → (ℕ → K) → (ℕ → K) × K × K)
    (n i : ℕ) (st : TriState K) : ℕ → K := fun a =>
  ∑ b in Finset.range (n - i - 1),
    stepS ops house n i st a b *
      (ops.conj (stepHouse house n i st).2.1 * stepV house n i st b)

/-- The coefficient vector after the product has been stored into
`hCoeffs.tail(n-i-1)` (indexes `i..n-2`). -/
def stepHc0 (ops : ScalarOps K) (house : ℕ → (ℕ → K) → (ℕ → K) × K × K)
    (n i : ℕ) (st : TriState K) : ℕ → K := fun k =>
  if i ≤ k ∧ k < n - 1 then stepP0 ops house n i st (k - i) else st.hc k

/-- The dot product `hCoeffs.tail(r).dot(matA.col(i).tail(r))`, read back from
the stored product.  Modelled from the spec: the dot product is
`∑ p_k · v_k` (the spec's `pᵗ·v`; the identity on real scalars). -/
def stepDot (ops : ScalarOps K) (house : ℕ → (ℕ → K) → (ℕ → K) × K × K)
    (n i : ℕ) (st : TriState K) : K :=
  ∑ k in Finset.range (n - i - 1),
    stepHc0 ops house n i st (i + k) * stepV house n i st k

/-- The coefficient vector after the correction
`hCoeffs.tail(r) += (conj(h) * (-0.5) * dot) * v`. -/
def stepHc1 (ops : ScalarOps K) (house : ℕ → (ℕ → K) → (ℕ → K) × K × K)
    (n i : ℕ) (st : TriState K) : ℕ → K := fun k =>
  if i ≤ k ∧ k < n - 1 then
    stepHc0 ops house n i st k +
      ops.conj (stepHouse house n i st).2.1 * -ops.inv 2 *
        stepDot ops house n i st * stepV house n i st (k - i)
  else stepHc0 ops house n i st k

/-- The matrix buffer at the end of the iteration.  Modelled from the spec:
the selfadjoint rank-2 update
`.selfadjointView<Lower>().rankUpdate(v, hCoeffs.tail(r), -1)` adds
`-1 * (v * pᴴ + p * vᴴ)` to the lower triangle (including the diagonal) of
the trailing block; for real scalars this is the spec's
`S += -1 * (v·pᵗ + p·vᵗ)`.  Afterwards `matA.col(i).coeffRef(i+1) = beta`
replaces the planted 1 by the sub-diagonal value. -/
def stepMatA (ops : ScalarOps K) (house : ℕ → (ℕ → K) → (ℕ → K) × K × K)
    (n i : ℕ) (st : TriState K) : ℕ → ℕ → K := fun a b =>
  if a = i + 1 ∧ b = i then (stepHouse house n i st).2.2
  else if i + 1 ≤ b ∧ b ≤ a ∧ a < n then
    stepA1 house n i st a b +
      -1 * (stepV house n i st (a - (i + 1)) *
              ops.conj (stepHc1 ops house n i st (i + (b - (i + 1)))) +
            stepHc1 ops house n i st (i + (a - (i + 1))) *
              ops.conj (stepV house n i st (b - (i + 1))))
  else stepA1 house n i st a b

/-- The coefficient vector at the end of the iteration:
`hCoeffs.coeffRef(i) = h`. -/
def stepHc2 (ops : ScalarOps K) (house : ℕ → (ℕ → K) → (ℕ → K) × K × K)
    (n i : ℕ) (st : TriState K) : ℕ → K := fun k =>
  if k = i then (stepHouse house n i st).2.1 else stepHc1 ops house n i st k

/-- One iteration (column index `i`) of the general in-place reduction loop of
`ei_tridiagonalization_inplace`, for a buffer of order `n`: the reflector, the
planted 1, the symmetric matrix-vector product, the correction, the rank-2
update, and the final `beta` and `h` writes, in source order. -/
def tridiagStep (ops : ScalarOps K) (house : ℕ → (ℕ → K) → (ℕ → K) × K × K)
    (n i : ℕ) (st : TriState K) : TriState K :=
  ⟨stepMatA ops house n i st, stepHc2 ops house n i st⟩

/-- The first `count` iterations (column indexes `0..count-1`) of the general
reduction loop on a buffer of order `n`. -/
def tridiagIters (ops : ScalarOps K) (house : ℕ → (ℕ → K) → (ℕ → K) × K × K)
    (n : ℕ) (st : TriState K) : ℕ → TriState K
  | 0 => st
  | count + 1 => tridiagStep ops house n count (tridiagIters ops house n st count)

/-- The whole loop of `ei_tridiagonalization_inplace`: iterations
`i = 0 .. n-2`. -/
def tridiagRun (ops : ScalarOps K) (house : ℕ → (ℕ → K) → (ℕ → K) × K × K)
    (n : ℕ) (st : TriState K) : TriState K :=
  tridiagIters ops house n st (n - 1)

/-- The `ei_assert` precondition of the 2-argument
`ei_tridiagonalization_inplace`: `matA.rows()==matA.cols()` and
`matA.rows()==hCoeffs.size()+1`. -/
def inplaceOK {K : Type} (matA : MatBuf K) (hCoeffs : VecBuf K) : Prop :=
  matA.rows = matA.cols ∧ matA.rows = hCoeffs.size + 1

instance {K : Type} (matA : MatBuf K) (hCoeffs : VecBuf K) :
    Decidable (inplaceOK matA hCoeffs) := by
  unfold inplaceOK; infer_instance

/-- The buffers produced by a completed run of the 2-argument
`ei_tridiagonalization_inplace` (sizes are unchanged; the entry functions are
the result of the loop). -/
def eiInplaceRun (ops : ScalarOps K) (house : ℕ → (ℕ → K) → (ℕ → K) × K × K)
    (matA : MatBuf K) (hCoeffs : VecBuf K) : MatBuf K × VecBuf K :=
  let st := tridiagRun ops house matA.rows ⟨matA.entry, hCoeffs.entry⟩
  (⟨matA.rows, matA.cols, st.matA⟩, ⟨hCoeffs.size, st.hc⟩)

/-- The 2-argument `ei_tridiagonalization_inplace(matA, hCoeffs)`: the
`ei_assert` checks, then the reduction loop.  A failed assertion is modelled
as `none`. -/
def eiInplace (ops : ScalarOps K) (house : ℕ → (ℕ → K) → (ℕ → K) × K × K)
    (matA : MatBuf K) (hCoeffs : VecBuf K) : Option (MatBuf K × VecBuf K) :=
  if inplaceOK matA hCoeffs then some (eiInplaceRun ops house matA hCoeffs)
  else none

/-- The general instantiation of `ei_tridiagonalization_inplace_selector`:
allocate `hCoeffs(mat.cols()-1)`, run the in-place reduction, read `diag` and
`subdiag` off the real diagonal and sub-diagonal of the packed buffer (the
assignments keep the output vectors' sizes), and, when `extractQ` is
requested, replace the buffer by the materialized Householder sequence.  The
materialization (`HouseholderSequence`, an external collaborator) is passed in
as `matQ`. -/
def selGeneralRun (ops : ScalarOps K) (house : ℕ → (ℕ → K) → (ℕ → K) × K × K)
    (matQ : MatBuf K → VecBuf K → MatBuf K)
    (mat : MatBuf K) (diag subdiag : VecBuf K) (extractQ : Bool) :
    MatBuf K × VecBuf K × VecBuf K :=
  let hCoeffs : VecBuf K := ⟨mat.cols - 1, fun _ => 0⟩
  let res := eiInplaceRun ops house mat hCoeffs
  let m := res.1
  let hc := res.2
  let d : VecBuf K := ⟨diag.size, fun i => ops.re (m.entry i i)⟩
  let s : VecBuf K := ⟨subdiag.size, fun i => ops.re (m.entry (i + 1) i)⟩
  (if extractQ then matQ m hc else m, d, s)

/-- The general selector including the inner `ei_assert` of the 2-argument
reduction it calls (a failed assertion is modelled as `none`). -/
def selGeneral (ops : ScalarOps K) (house : ℕ → (ℕ → K) → (ℕ → K) × K × K)
    (matQ : MatBuf K → VecBuf K → MatBuf K)
    (mat : MatBuf K) (diag subdiag : VecBuf K) (extractQ : Bool) :
    Option (MatBuf K × VecBuf K × VecBuf K) :=
  if inplaceOK mat ⟨mat.cols - 1, fun _ => 0⟩ then
    some (selGeneralRun ops house matQ mat diag subdiag extractQ)
  else none

/-- The 3x3 instantiation `ei_tridiagonalization_inplace_selector<MatrixType,3>`.
The external scalar collaborators `ei_isMuchSmallerThan` and `ei_sqrt` are
passed in as `isMuch` and `sqrt`. -/
def sel3 (ops : ScalarOps K) (isMuch : K → K → Bool) (sqrt : K → K)
    (mat : MatBuf K) (diag subdiag : VecBuf K) (extractQ : Bool) :
    MatBuf K × VecBuf K × VecBuf K :=
  let m := mat.entry
  let d0 : ℕ → K := fun k => if k = 0 then ops.re (m 0 0) else diag.entry k
  let v1norm2 := abs2 ops (m 2 0)
  if isMuch v1norm2 1 then
    let d : ℕ → K := fun k =>
      if k = 1 then ops.re (m 1 1) else if k = 2 then ops.re (m 2 2) else d0 k
    let s : ℕ → K := fun k =>
      if k = 0 then ops.re (m 1 0) else if k = 1 then ops.re (m 2 1)
      else subdiag.entry k
    let q : ℕ → ℕ → K := fun a b =>
      if a < 3 ∧ b < 3 then (if a = b then 1 else 0) else m a b
    (⟨mat.rows, mat.cols, if extractQ then q else m⟩,
     ⟨diag.size, d⟩, ⟨subdiag.size, s⟩)
  else
    let beta := sqrt (abs2 ops (m 1 0) + v1norm2)
    let invBeta := ops.inv beta
    let m01 := ops.conj (m 1 0) * invBeta
    let m02 := ops.conj (m 2 0) * invBeta
    let q := 2 * m01 * ops.conj (m 2 1) + m02 * (m 2 2 - m 1 1)
    let d : ℕ → K := fun k =>
      if k = 1 then ops.re (m 1 1 + m02 * q)
      else if k = 2 then ops.re (m 2 2 - m02 * q) else d0 k
    let s : ℕ → K := fun k =>
      if k = 0 then beta
      else if k = 1 then ops.re (ops.conj (m 2 1) - m01 * q) else subdiag.entry k
    let qm : ℕ → ℕ → K := fun a b =>
      if a < 3 ∧ b < 3 then
        (if a = 0 then (if b = 0 then 1 else 0)
         else if a = 1 then (if b = 0 then 0 else if b = 1 then m01 else m02)
         else (if b = 0 then 0 else if b = 1 then m02 else -m01))
      else m a b
    (⟨mat.rows, mat.cols, if extractQ then qm else m⟩,
     ⟨diag.size, d⟩, ⟨subdiag.size, s⟩)

/-- The 1x1 instantiation `ei_tridiagonalization_inplace_selector<MatrixType,1>`:
`diag(0,0) = ei_real(mat(0,0))`, and when `extractQ` is requested
`mat(0,0) = Scalar(1)`. -/
def sel1 (ops : ScalarOps K) (mat : MatBuf K) (diag subdiag : VecBuf K)
    (extractQ : Bool) : MatBuf K × VecBuf K × VecBuf K :=
  let d : ℕ → K := fun k => if k = 0 then ops.re (mat.entry 0 0) else diag.entry k
  let q : ℕ → ℕ → K := fun a b => if a = 0 ∧ b = 0 then 1 else mat.entry a b
  (⟨mat.rows, mat.cols, if extractQ then q else mat.entry⟩, ⟨diag.size, d⟩, subdiag)

/-- The `ei_assert` precondition of the 4-argument
`ei_tridiagonalization_inplace(mat, diag, subdiag, extractQ)`:
`mat.cols()==n && diag.size()==n && subdiag.size()==n-1` with `n = mat.rows()`
(the sizes are C++ signed `Index` values, so `n-1` is integer subtraction). -/
def dispatchOK {K : Type} (mat : MatBuf K) (diag subdiag : VecBuf K) : Prop :=
  mat.cols = mat.rows ∧ diag.size = mat.rows ∧
    (subdiag.size : ℤ) = (mat.rows : ℤ) - 1

instance {K : Type} (mat : MatBuf K) (diag subdiag : VecBuf K) :
    Decidable (dispatchOK mat diag subdiag) := by
  unfold dispatchOK; infer_instance

/-- The 4-argument `ei_tridiagonalization_inplace(mat, diag, subdiag, extractQ)`
as instantiated for a dynamic-size matrix type: the `ei_assert` check followed
by the general selector.  A failed assertion is modelled as `none`. -/
def eiInplace4 (ops : ScalarOps K) (house : ℕ → (ℕ → K) → (ℕ → K) × K × K)
    (matQ : MatBuf K → VecBuf K → MatBuf K)
    (mat : MatBuf K) (diag subdiag : VecBuf K) (extractQ : Bool) :
    Option (MatBuf K × VecBuf K × VecBuf K) :=
  if dispatchOK mat diag subdiag then
    selGeneral ops house matQ mat diag subdiag extractQ
  else none

end Reduction

section Facade

variable {K : Type} [CommRing K] [DecidableEq K]

/-- The state owned by the `Tridiagonalization` facade: the matrix buffer,
the Householder coefficient vector, and the `m_isInitialized` flag gating the
read accessors. -/
structure Tri (K : Type) where
  m_matrix : MatBuf K
  m_hCoeffs : VecBuf K
  m_isInitialized : Bool

/-- The payload of `Tridiagonalization::matrixQ()`: the arguments packed into
the lazy `HouseholderSequence(m_matrix, m_hCoeffs.conjugate(), false,
m_matrix.rows()-1, 1)` object (an external collaborator, kept symbolic). -/
structure HSeq (K : Type) where
  packed : MatBuf K
  coeffs : VecBuf K
  trans : Bool
  length : ℕ
  shift : ℕ

/-- The condition under which `Tridiagonalization::compute(matrix)` completes:
after `m_hCoeffs.resize(matrix.rows()-1, 1)`, the inner `ei_assert` of
`ei_tridiagonalization_inplace` demands a square buffer with
`rows == (rows-1)+1`, i.e. a square matrix of order at least 1. -/
def computeOK {K : Type} (A : MatBuf K) : Prop :=
  A.rows = A.cols ∧ 1 ≤ A.rows

instance {K : Type} (A : MatBuf K) : Decidable (computeOK A) := by
  unfold computeOK; infer_instance

/-- The facade state produced by a completed `compute(matrix)`: `m_matrix`
holds the packed reduction of the input, `m_hCoeffs` was resized to
`matrix.rows()-1` entries and filled by the reduction, and `m_isInitialized`
is set. -/
def Tri.computeRun (ops : ScalarOps K) (house : ℕ → (ℕ → K) → (ℕ → K) × K × K)
    (t : Tri K) (A : MatBuf K) : Tri K :=
  let resized : VecBuf K := ⟨A.rows - 1, t.m_hCoeffs.entry⟩
  let res := eiInplaceRun ops house A resized
  ⟨res.1, res.2, true⟩

/-- `Tridiagonalization::compute(matrix)`: copy the input, resize `m_hCoeffs`
to `matrix.rows()-1`, run `ei_tridiagonalization_inplace`, set
`m_isInitialized`.  A failed inner assertion is modelled as `none`. -/
def Tri.compute (ops : ScalarOps K) (house : ℕ → (ℕ → K) → (ℕ → K) × K × K)
    (t : Tri K) (A : MatBuf K) : Option (Tri K) :=
  if computeOK A then some (t.computeRun ops house A) else none

/-- The precondition of the computing constructor
`Tridiagonalization(const MatrixType&)`: it allocates
`m_hCoeffs(matrix.cols() > 1 ? matrix.cols()-1 : 1)` and then the inner
`ei_assert` of `ei_tridiagonalization_inplace` must accept the pair. -/
def ctorOK {K : Type} (A : MatBuf K) : Prop :=
  A.rows = A.cols ∧ A.rows = (if 1 < A.cols then A.cols - 1 else 1) + 1

instance {K : Type} (A : MatBuf K) : Decidable (ctorOK A) := by
  unfold ctorOK; infer_instance

/-- The computing constructor `Tridiagonalization(const MatrixType&)`:
`m_matrix(matrix)`, `m_hCoeffs(matrix.cols() > 1 ? matrix.cols()-1 : 1)`,
then `ei_tridiagonalization_inplace(m_matrix, m_hCoeffs)` and
`m_isInitialized = true`.  A failed inner assertion is modelled as `none`. -/
def Tri.ctor (ops : ScalarOps K) (house : ℕ → (ℕ → K) → (ℕ → K) × K × K)
    (A : MatBuf K) : Option (Tri K) :=
  let hCoeffs : VecBuf K := ⟨if 1 < A.cols then A.cols - 1 else 1, fun _ => 0⟩
  if ctorOK A then
    let res := eiInplaceRun ops house A hCoeffs
    some ⟨res.1, res.2, true⟩
  else none

/-- `Tridiagonalization::householderCoefficients()`: gated by the
`ei_assert(m_isInitialized && ...)` contract check. -/
def Tri.householderCoefficients (t : Tri K) : Option (VecBuf K) :=
  if t.m_isInitialized then some t.m_hCoeffs else none

/-- `Tridiagonalization::packedMatrix()`: gated by the initialization
assertion. -/
def Tri.packedMatrix (t : Tri K) : Option (MatBuf K) :=
  if t.m_isInitialized then some t.m_matrix else none

/-- `Tridiagonalization::matrixQ()`: gated by the initialization assertion;
returns `HouseholderSequence(m_matrix, m_hCoeffs.conjugate(), false,
m_matrix.rows()-1, 1)`. -/
def Tri.matrixQ (ops : ScalarOps K) (t : Tri K) : Option (HSeq K) :=
  if t.m_isInitialized then
    some ⟨t.m_matrix, ⟨t.m_hCoeffs.size, fun k => ops.conj (t.m_hCoeffs.entry k)⟩,
          false, t.m_matrix.rows - 1, 1⟩
  else none

/-- `Tridiagonalization::diagonal()`: gated by the initialization assertion;
the real view of the diagonal of the packed buffer (for real scalars
`ei_real` is the identity). -/
def Tri.diagonal (ops : ScalarOps K) (t : Tri K) : Option (VecBuf K) :=
  if t.m_isInitialized then
    some ⟨t.m_matrix.rows, fun i => ops.re (t.m_matrix.entry i i)⟩
  else none

/-- `Tridiagonalization::subDiagonal()`: gated by the initialization
assertion; the real view of the diagonal of `Block(m_matrix, 1, 0, n-1, n-1)`. -/
def Tri.subDiagonal (ops : ScalarOps K) (t : Tri K) : Option (VecBuf K) :=
  if t.m_isInitialized then
    some ⟨t.m_matrix.rows - 1, fun i => ops.re (t.m_matrix.entry (i + 1) i)⟩
  else none

/-- The matrix built by `Tridiagonalization::matrixT()` from the packed buffer
`P` of order `n`: start from a copy of `P`, assign
`matT.topRightCorner(n-1,n-1).diagonal() = subDiagonal().cast<Scalar>().conjugate()`
(the super-diagonal becomes the conjugated real sub-diagonal value), and for
`n > 2` zero the upper triangle of `topRightCorner(n-2,n-2)` and the lower
triangle of `bottomLeftCorner(n-2,n-2)` (exactly the entries at distance at
least 2 from the diagonal). -/
def matrixTfun (ops : ScalarOps K) (n : ℕ) (P : ℕ → ℕ → K) : ℕ → ℕ → K :=
  fun r c =>
    if 2 < n ∧ (r + 2 ≤ c ∨ c + 2 ≤ r) then 0
    else if c = r + 1 ∧ c < n then ops.conj (ops.re (P c r))
    else P r c

/-- `Tridiagonalization::matrixT()`: gated by the initialization assertion;
returns the materialized tridiagonal matrix. -/
def Tri.matrixT (ops : ScalarOps K) (t : Tri K) : Option (MatBuf K) :=
  if t.m_isInitialized then
    some ⟨t.m_matrix.rows, t.m_matrix.cols,
          matrixTfun ops t.m_matrix.rows t.m_matrix.entry⟩
  else none

end Facade

section Scalars

/-- A fraction of integers with nonzero denominator: the representation
underlying the exact rational scalars `Rq`.  (Mathlib's `ℚ` is not used
because its normalizing arithmetic does not reduce inside the kernel, which
would prevent witnesses from evaluating concrete runs by `decide`.) -/
structure PreRq where
  n : ℤ
  d : ℤ
  dnz : d ≠ 0

/-- Two fractions represent the same rational: `n₁/d₁ = n₂/d₂` iff
`n₁·d₂ = n₂·d₁`. -/
def rqRel (x y : PreRq) : Prop := x.n * y.d = y.n * x.d

instance : DecidableRel rqRel := fun x y =>
  inferInstanceAs (Decidable (x.n * y.d = y.n * x.d))

theorem rqRel_refl (x : PreRq) : rqRel x x := rfl

theorem rqRel_symm {x y : PreRq} (h : rqRel x y) : rqRel y x := h.symm

theorem rqRel_trans {x y z : PreRq} (h1 : rqRel x y) (h2 : rqRel y z) :
    rqRel x z := by
  have key : x.n * z.d * y.d = z.n * x.d * y.d := by
    unfold rqRel at h1 h2
    linear_combination z.d * h1 + x.d * h2
  exact mul_right_cancel₀ y.dnz key

instance rqSetoid : Setoid PreRq :=
  ⟨rqRel, fun x => rqRel_refl x, rqRel_symm, rqRel_trans⟩

/-- The exact rationals, as the quotient of integer fractions.  All arithmetic
reduces inside the kernel. -/
def Rq := Quotient rqSetoid

instance (a b : PreRq) : Decidable (a ≈ b) :=
  inferInstanceAs (Decidable (rqRel a b))

instance : DecidableEq Rq :=
  inferInstanceAs (DecidableEq (Quotient rqSetoid))

/-- The rational `n/d`. -/
def Rq.mk (n d : ℤ) (h : d ≠ 0) : Rq := Quotient.mk _ ⟨n, d, h⟩

instance : Zero Rq := ⟨Rq.mk 0 1 one_ne_zero⟩
instance : One Rq := ⟨Rq.mk 1 1 one_ne_zero⟩

instance : Add Rq :=
  ⟨Quotient.map₂
    (fun x y => ⟨x.n * y.d + y.n * x.d, x.d * y.d, mul_ne_zero x.dnz y.dnz⟩)
    (by
      intro x x' hx y y' hy
      have hx' : x.n * x'.d = x'.n * x.d := hx
      have hy' : y.n * y'.d = y'.n * y.d := hy
      show rqRel _ _
      show _ * _ = _ * _
      simp only
      linear_combination y.d * y'.d * hx' + x.d * x'.d * hy')⟩

instance : Mul Rq :=
  ⟨Quotient.map₂
    (fun x y => ⟨x.n * y.n, x.d * y.d, mul_ne_zero x.dnz y.dnz⟩)
    (by
      intro x x' hx y y' hy
      have hx' : x.n * x'.d = x'.n * x.d := hx
      have hy' : y.n * y'.d = y'.n * y.d := hy
      show rqRel _ _
      show _ * _ = _ * _
      simp only
      linear_combination y.n * y'.d * hx' + x'.n * x.d * hy')⟩

instance : Neg Rq :=
  ⟨Quotient.map (fun x => ⟨-x.n, x.d, x.dnz⟩)
    (by
      intro x x' hx
      have hx' : x.n * x'.d = x'.n * x.d := hx
      show rqRel _ _
      show _ * _ = _ * _
      simp only
      linear_combination -hx')⟩

instance : NatCast Rq := ⟨fun m => Rq.mk (m : ℤ) 1 one_ne_zero⟩
instance : IntCast Rq := ⟨fun m => Rq.mk m 1 one_ne_zero⟩

instance : CommRing Rq where
  add_assoc x y z := by
    refine Quotient.inductionOn₃ x y z fun a b c => Quotient.sound ?_
    show rqRel _ _
    show _ * _ = _ * _
    simp only
    ring
  zero_add x := by
    refine Quotient.inductionOn x fun a => Quotient.sound ?_
    show rqRel _ _
    show _ * _ = _ * _
    simp only
    ring
  add_zero x := by
    refine Quotient.inductionOn x fun a => Quotient.sound ?_
    show rqRel _ _
    show _ * _ = _ * _
    simp only
    ring
  add_comm x y := by
    refine Quotient.inductionOn₂ x y fun a b => Quotient.sound ?_
    show rqRel _ _
    show _ * _ = _ * _
    simp only
    ring
  neg_add_cancel x := by
    refine Quotient.inductionOn x fun a => Quotient.sound ?_
    show rqRel _ _
    show _ * _ = _ * _
    simp only
    ring
  mul_assoc x y z := by
    refine Quotient.inductionOn₃ x y z fun a b c => Quotient.sound ?_
    show rqRel _ _
    show _ * _ = _ * _
    simp only
    ring
  one_mul x := by
    refine Quotient.inductionOn x fun a => Quotient.sound ?_
    show rqRel _ _
    show _ * _ = _ * _
    simp only
    ring
  mul_one x := by
    refine Quotient.inductionOn x fun a => Quotient.sound ?_
    show rqRel _ _
    show _ * _ = _ * _
    simp only
    ring
  left_distrib x y z := by
    refine Quotient.inductionOn₃ x y z fun a b c => Quotient.sound ?_
    show rqRel _ _
    show _ * _ = _ * _
    simp only
    ring
  right_distrib x y z := by
    refine Quotient.inductionOn₃ x y z fun a b c => Quotient.sound ?_
    show rqRel _ _
    show _ * _ = _ * _
    simp only
    ring
  zero_mul x := by
    refine Quotient.inductionOn x fun a => Quotient.sound ?_
    show rqRel _ _
    show _ * _ = _ * _
    simp only
    ring
  mul_zero x := by
    refine Quotient.inductionOn x fun a => Quotient.sound ?_
    show rqRel _ _
    show _ * _ = _ * _
    simp only
    ring
  mul_comm x y := by
    refine Quotient.inductionOn₂ x y fun a b => Quotient.sound ?_
    show rqRel _ _
    show _ * _ = _ * _
    simp only
    ring
  natCast_zero := by
    refine Quotient.sound ?_
    show rqRel _ _
    show _ * _ = _ * _
    simp
  natCast_succ m := by
    refine Quotient.sound ?_
    show rqRel _ _
    show _ * _ = _ * _
    push_cast
    ring
  intCast_ofNat m := by
    refine Quotient.sound ?_
    show rqRel _ _
    show _ * _ = _ * _
    push_cast
    ring
  intCast_negSucc m := by
    refine Quotient.sound ?_
    show rqRel _ _
    show _ * _ = _ * _
    rw [Int.negSucc_eq]
    push_cast
    ring
  nsmul := nsmulRec
  zsmul := zsmulRec

/-- The representative-level inverse underlying `Rq.inv`. -/
def PreRq.invFn (x : PreRq) : PreRq :=
  if h : x.n = 0 then ⟨0, 1, one_ne_zero⟩ else ⟨x.d, x.n, h⟩

/-- The multiplicative inverse on `Rq`: `(n/d)⁻¹ = d/n` for `n ≠ 0`, with the
conventional junk value `0` at `0`. -/
def Rq.inv : Rq → Rq :=
  Quotient.map PreRq.invFn
    (by
      intro x x' hx
      have hx' : x.n * x'.d = x'.n * x.d := hx
      show PreRq.invFn x ≈ PreRq.invFn x'
      unfold PreRq.invFn
      by_cases h : x.n = 0
      · have h' : x'.n = 0 := by
          have hz : x'.n * x.d = 0 := by rw [← hx', h, zero_mul]
          exact (mul_eq_zero.mp hz).resolve_right x.dnz
        rw [dif_pos h, dif_pos h']
      · have h' : x'.n ≠ 0 := by
          intro hz
          apply h
          have hz2 : x.n * x'.d = 0 := by rw [hx', hz, zero_mul]
          exact (mul_eq_zero.mp hz2).resolve_right x'.dnz
        rw [dif_neg h, dif_neg h']
        show rqRel _ _
        show _ * _ = _ * _
        simp only
        linear_combination -hx')

/-- The quadratic extension `Rq[x]/(x² = d)`: elements `a + b·ω` with
`ω² = d`.  With `d = 5` this is the exact field `ℚ(√5)` in which the 3x3
concrete scenario computes; with `d = -1` it is the field `ℚ(i)` of complex
rationals used to exercise the complex-scalar instantiation. -/
structure Adj (d : Rq) where
  a : Rq
  b : Rq

theorem Adj.ext2 {d : Rq} {x y : Adj d} (ha : x.a = y.a) (hb : x.b = y.b) :
    x = y := by
  cases x; cases y; simp_all

instance {d : Rq} : DecidableEq (Adj d) := fun x y =>
  decidable_of_iff (x.a = y.a ∧ x.b = y.b)
    ⟨fun h => Adj.ext2 h.1 h.2, fun h => by rw [h]; exact ⟨rfl, rfl⟩⟩

instance {d : Rq} : Zero (Adj d) := ⟨⟨0, 0⟩⟩
instance {d : Rq} : One (Adj d) := ⟨⟨1, 0⟩⟩
instance {d : Rq} : Add (Adj d) := ⟨fun x y => ⟨x.a + y.a, x.b + y.b⟩⟩
instance {d : Rq} : Neg (Adj d) := ⟨fun x => ⟨-x.a, -x.b⟩⟩
instance {d : Rq} : Mul (Adj d) :=
  ⟨fun x y => ⟨x.a * y.a + d * (x.b * y.b), x.a * y.b + x.b * y.a⟩⟩
instance {d : Rq} : NatCast (Adj d) := ⟨fun n => ⟨(n : Rq), 0⟩⟩
instance {d : Rq} : IntCast (Adj d) := ⟨fun n => ⟨(n : Rq), 0⟩⟩

theorem Adj.add_def {d : Rq} (x y : Adj d) : x + y = ⟨x.a + y.a, x.b + y.b⟩ := rfl
theorem Adj.mul_def {d : Rq} (x y : Adj d) :
    x * y = ⟨x.a * y.a + d * (x.b * y.b), x.a * y.b + x.b * y.a⟩ := rfl
theorem Adj.neg_def {d : Rq} (x : Adj d) : -x = ⟨-x.a, -x.b⟩ := rfl
theorem Adj.zero_def {d : Rq} : (0 : Adj d) = ⟨0, 0⟩ := rfl
theorem Adj.one_def {d : Rq} : (1 : Adj d) = ⟨1, 0⟩ := rfl

instance {d : Rq} : CommRing (Adj d) where
  add_assoc x y z := by apply Adj.ext2 <;> simp [Adj.add_def] <;> ring
  zero_add x := by apply Adj.ext2 <;> simp [Adj.add_def, Adj.zero_def]
  add_zero x := by apply Adj.ext2 <;> simp [Adj.add_def, Adj.zero_def]
  add_comm x y := by apply Adj.ext2 <;> simp [Adj.add_def] <;> ring
  neg_add_cancel x := by
    apply Adj.ext2 <;> simp [Adj.add_def, Adj.neg_def, Adj.zero_def]
  mul_assoc x y z := by apply Adj.ext2 <;> simp [Adj.mul_def] <;> ring
  one_mul x := by apply Adj.ext2 <;> simp [Adj.mul_def, Adj.one_def]
  mul_one x := by apply Adj.ext2 <;> simp [Adj.mul_def, Adj.one_def]
  left_distrib x y z := by
    apply Adj.ext2 <;> simp [Adj.mul_def, Adj.add_def] <;> ring
  right_distrib x y z := by
    apply Adj.ext2 <;> simp [Adj.mul_def, Adj.add_def] <;> ring
  zero_mul x := by apply Adj.ext2 <;> simp [Adj.mul_def, Adj.zero_def]
  mul_zero x := by apply Adj.ext2 <;> simp [Adj.mul_def, Adj.zero_def]
  mul_comm x y := by apply Adj.ext2 <;> simp [Adj.mul_def] <;> ring
  natCast n := ⟨(n : Rq), 0⟩
  natCast_zero := by apply Adj.ext2 <;> simp [Adj.zero_def]
  natCast_succ n := by
    apply Adj.ext2 <;> simp [Adj.add_def, Adj.one_def]
  intCast n := ⟨(n : Rq), 0⟩
  intCast_ofNat n := rfl
  intCast_negSucc n := by
    apply Adj.ext2
    · refine Quotient.sound ?_
      show rqRel _ _
      show _ * _ = _ * _
      simp only
      rw [Int.negSucc_eq]
      push_cast
      ring
    · refine Quotient.sound ?_
      show rqRel _ _
      show _ * _ = _ * _
      simp only
      ring
  nsmul := nsmulRec
  zsmul := zsmulRec

/-- The multiplicative inverse in `Adj d`:
`(a + b·ω)⁻¹ = (a - b·ω) / (a² - d·b²)` (junk value at `0`, matching the
convention for scalar division). -/
def Adj.inv {d : Rq} (x : Adj d) : Adj d :=
  let nrm := Rq.inv (x.a * x.a - d * (x.b * x.b))
  ⟨x.a * nrm, -x.b * nrm⟩

/-- The exact real quadratic field `ℚ(√5)`. -/
abbrev Q5 := Adj 5

/-- `√5` as an element of `Q5`. -/
def Q5.sqrt5 : Q5 := ⟨0, 1⟩

/-- `Q5.sqrt5` squares to `5`: it is a square root of 5 in `Q5`. -/
theorem Q5.sqrt5_sq : Q5.sqrt5 * Q5.sqrt5 = 5 := by decide

/-- The complex rationals `ℚ(i)`. -/
abbrev CQ := Adj (-1)

/-- Complex conjugation on `CQ`. -/
def CQ.conj (z : CQ) : CQ := ⟨z.a, -z.b⟩

/-- The real part of a `CQ` value, embedded back into `CQ`. -/
def CQ.re (z : CQ) : CQ := ⟨z.a, 0⟩

/-- Scalar operations for the real scalar type `Rq`: conjugation and real part
are the identity. -/
def rqOps : ScalarOps Rq := ⟨id, id, Rq.inv⟩

/-- Scalar operations for the real scalar type `Q5`: conjugation and real part
are the identity. -/
def q5Ops : ScalarOps Q5 := ⟨id, id, Adj.inv⟩

/-- Scalar operations for the complex scalar type `CQ`. -/
def cqOps : ScalarOps CQ := ⟨CQ.conj, CQ.re, Adj.inv⟩

theorem CQ.conj_add (x y : CQ) : CQ.conj (x + y) = CQ.conj x + CQ.conj y := by
  apply Adj.ext2 <;> simp [CQ.conj, Adj.add_def] <;> ring

theorem CQ.conj_mul (x y : CQ) : CQ.conj (x * y) = CQ.conj x * CQ.conj y := by
  apply Adj.ext2 <;> simp [CQ.conj, Adj.mul_def] <;> ring

theorem CQ.conj_conj (x : CQ) : CQ.conj (CQ.conj x) = x := by
  apply Adj.ext2 <;> simp [CQ.conj]

theorem CQ.conj_re (x : CQ) : CQ.conj (CQ.re x) = CQ.re x := by
  apply Adj.ext2 <;> simp [CQ.conj, CQ.re]

/-- Modelled from the spec: `ei_sqrt` at the exact scalar type `Q5`, on the
single value at which the 3x3 concrete scenario evaluates it — it returns the
nonnegative square root `√5 = Q5.sqrt5` at input `5` (`Q5.sqrt5_sq` checks
that this is indeed a square root of 5; `⟨0, 1⟩ = 0 + 1·√5` is the
nonnegative one), and a junk value elsewhere. -/
def q5Sqrt (x : Q5) : Q5 :=
  if x = 5 then Q5.sqrt5 else 0

/-- Modelled from the spec: `ei_isMuchSmallerThan` instantiated for exact
(infinite-precision) arithmetic — `x` is negligible relative to the reference
exactly when it is zero, the exact-arithmetic limit of the relative-threshold
test. -/
def exactIsMuch {K : Type} [DecidableEq K] [Zero K] (x _y : K) : Bool :=
  decide (x = 0)

end Scalars

section Reflector

variable {K : Type} [CommRing K] [DecidableEq K]

/-- Modelled from the spec: the external ReflectorPrimitive
(`makeHouseholderInPlace`) — "given a vector, produce a scalar coefficient and
the transformed leading entry such that applying `I - h·v·vᵗ` zeroes all but
the first entry", mutating the vector's tail in place.  On the tail `x` of
length `r`: if the part below the leading entry has zero squared norm and the
leading entry `c0` is real, the vector is already reduced (`h = 0`,
`beta = c0`, essential part zeroed); otherwise `beta = sqrt(|c0|² + tailSq)`
(the nonnegative root, the sign convention fixed by the spec's concrete
scenario `subdiagonal[0] = sqrt(5)`), `h = conj((beta - c0)/beta)` and the
essential part is `x_j / (c0 - beta)`, which indeed sends the vector to
`(beta, 0, …, 0)`.  Returns (new tail contents, `h`, `beta`); the leading tail
entry is left in place by the primitive. -/
def makeHouseholder (ops : ScalarOps K) (sqrt : K → K) (r : ℕ) (x : ℕ → K) :
    (ℕ → K) × K × K :=
  let c0 := x 0
  let tailSqNorm := ∑ j in Finset.range (r - 1), abs2 ops (x (j + 1))
  if tailSqNorm = 0 ∧ ops.conj c0 = c0 then
    (fun j => if 1 ≤ j ∧ j < r then 0 else x j, 0, c0)
  else
    let beta := sqrt (abs2 ops c0 + tailSqNorm)
    (fun j => if 1 ≤ j ∧ j < r then x j * ops.inv (c0 - beta) else x j,
     ops.conj ((beta - c0) * ops.inv beta), beta)

end Reflector

section FrameLemmas

variable {K : Type} [CommRing K] [DecidableEq K]
variable (ops : ScalarOps K) (house : ℕ → (ℕ → K) → (ℕ → K) × K × K)

/-- A single loop iteration never writes a strict-upper-triangle entry. -/
theorem tridiagStep_upper (n i : ℕ) (st : TriState K) (a b : ℕ) (hab : a < b) :
    (tridiagStep ops house n i st).matA a b = st.matA a b := by
  show stepMatA ops house n i st a b = st.matA a b
  simp only [stepMatA, stepA1]
  split_ifs <;> first | rfl | omega

/-- A single loop iteration with column index `i` never writes a matrix entry
in a column to the left of `i`. -/
theorem tridiagStep_colFrame (n i : ℕ) (st : TriState K) (a b : ℕ)
    (hb : b < i) :
    (tridiagStep ops house n i st).matA a b = st.matA a b := by
  show stepMatA ops house n i st a b = st.matA a b
  simp only [stepMatA, stepA1]
  split_ifs <;> first | rfl | omega

/-- A single loop iteration with column index `i` never writes a coefficient
entry below index `i`. -/
theorem tridiagStep_hcFrame (n i : ℕ) (st : TriState K) (k : ℕ) (hk : k < i) :
    (tridiagStep ops house n i st).hc k = st.hc k := by
  show stepHc2 ops house n i st k = st.hc k
  simp only [stepHc2, stepHc1, stepHc0]
  split_ifs <;> first | rfl | omega

/-- The strict upper triangle survives any number of loop iterations
untouched. -/
theorem tridiagIters_upper (n : ℕ) (st : TriState K) (m : ℕ) (a b : ℕ)
    (hab : a < b) :
    (tridiagIters ops house n st m).matA a b = st.matA a b := by
  induction m with
  | zero => rfl
  | succ m ih =>
    rw [tridiagIters, tridiagStep_upper ops house n m _ a b hab, ih]

/-- Matrix entries in columns `0..i` of the lower triangle are frozen once
iteration `i` has completed: any further iterations leave them unchanged. -/
theorem tridiagIters_lower_frame (n : ℕ) (st : TriState K) (i m : ℕ)
    (hm : i + 1 ≤ m) (a b : ℕ) (hba : b ≤ a) (hb : a ≤ i ∨ b ≤ i) :
    (tridiagIters ops house n st m).matA a b =
      (tridiagIters ops house n st (i + 1)).matA a b := by
  have hbi : b ≤ i := by omega
  induction m with
  | zero => omega
  | succ m ih =>
    rcases Nat.lt_or_ge m (i + 1) with hlt | hge
    · have hmi : m + 1 = i + 1 := by omega
      rw [hmi]
    · rw [tridiagIters, tridiagStep_colFrame ops house n m _ a b (by omega),
        ih (by omega)]

/-- Coefficient entries `0..i` are frozen once iteration `i` has completed. -/
theorem tridiagIters_hc_frame (n : ℕ) (st : TriState K) (i m : ℕ)
    (hm : i + 1 ≤ m) (k : ℕ) (hk : k ≤ i) :
    (tridiagIters ops house n st m).hc k =
      (tridiagIters ops house n st (i + 1)).hc k := by
  induction m with
  | zero => omega
  | succ m ih =>
    rcases Nat.lt_or_ge m (i + 1) with hlt | hge
    · have hmi : m + 1 = i + 1 := by omega
      rw [hmi]
    · rw [tridiagIters, tridiagStep_hcFrame ops house n m _ k (by omega),
        ih (by omega)]

end FrameLemmas

section Fixtures

/-- A trivial stand-in for the reflector primitive (`h = 0`, `beta` the leading
entry, tail untouched), used to instantiate claims that hold for every
reflector primitive at concrete inputs. -/
def wHouse : ℕ → (ℕ → Rq) → (ℕ → Rq) × Rq × Rq := fun _ x => (x, 0, x 0)

/-- A concrete symmetric 2x2 input buffer over the exact rationals. -/
def wMat2 : MatBuf Rq :=
  ⟨2, 2, fun a b =>
    if a = 0 ∧ b = 0 then 1 else if a = 0 ∧ b = 1 then 2
    else if a = 1 ∧ b = 0 then 2 else if a = 1 ∧ b = 1 then 3 else 0⟩

/-- A size-1 coefficient vector fixture. -/
def wVec1 : VecBuf Rq := ⟨1, fun _ => 0⟩

/-- A concrete symmetric 3x3 input buffer over the exact rationals. -/
def wMat3 : MatBuf Rq :=
  ⟨3, 3, fun a b =>
    if a = 0 ∧ b = 0 then 4 else if a = 0 ∧ b = 1 then 1
    else if a = 0 ∧ b = 2 then -2 else if a = 1 ∧ b = 0 then 1
    else if a = 1 ∧ b = 1 then 2 else if a = 1 ∧ b = 2 then 0
    else if a = 2 ∧ b = 0 then -2 else if a = 2 ∧ b = 1 then 0
    else if a = 2 ∧ b = 2 then 3 else 0⟩

/-- A trivial stand-in for the `HouseholderSequence` materialization (never
inspected by the claims, which use `extractQ = false` on the general path). -/
def wMatQ : MatBuf Rq → VecBuf Rq → MatBuf Rq := fun m _ => m

end Fixtures

section ClaimsFrame

variable {K : Type} [CommRing K] [DecidableEq K]

/-- C2: for every square input buffer, after the general in-place reduction
`ei_tridiagonalization_inplace(matA, hCoeffs)` completes (its assertions
accept the pair, so the wrapper returns the run's result), every entry of the
strict upper triangle of the buffer equals the corresponding entry of the
original input.  This holds for every reflector primitive `house`. -/
theorem claim_C2 (ops : ScalarOps K) (house : ℕ → (ℕ → K) → (ℕ → K) × K × K)
    (matA : MatBuf K) (hCoeffs : VecBuf K) (hok : inplaceOK matA hCoeffs)
    (r c : ℕ) (hrc : r < c) :
    eiInplace ops house matA hCoeffs =
      some (eiInplaceRun ops house matA hCoeffs) ∧
    (eiInplaceRun ops house matA hCoeffs).1.entry r c = matA.entry r c := by
  constructor
  · rw [eiInplace, if_pos hok]
  · exact tridiagIters_upper ops house matA.rows
      ⟨matA.entry, hCoeffs.entry⟩ (matA.rows - 1) r c hrc

theorem claim_C2_witness :
    inplaceOK wMat2 wVec1 ∧
      (eiInplaceRun rqOps wHouse wMat2 wVec1).1.entry 0 1 = wMat2.entry 0 1 :=
  ⟨by decide, (claim_C2 rqOps wHouse wMat2 wVec1 (by decide) 0 1 (by decide)).2⟩

/-- C3: once iteration `i` of the general reduction loop has completed, the
lower-triangle entries in rows `0..i` or columns `0..i` and the coefficient
entries `0..i` are final: any later iteration count `m > i` leaves them at
their post-iteration-`i` values, and in particular they already equal their
values in the final packed result (`tridiagRun`, i.e. after all `n-1`
iterations).  This holds for every reflector primitive `house`. -/
theorem claim_C3 (ops : ScalarOps K) (house : ℕ → (ℕ → K) → (ℕ → K) × K × K)
    (n : ℕ) (st : TriState K) (i m : ℕ) (hi : i < n - 1) (hm : i + 1 ≤ m) :
    (∀ a b, b ≤ a → (a ≤ i ∨ b ≤ i) →
      (tridiagIters ops house n st m).matA a b =
        (tridiagIters ops house n st (i + 1)).matA a b) ∧
    (∀ k, k ≤ i →
      (tridiagIters ops house n st m).hc k =
        (tridiagIters ops house n st (i + 1)).hc k) ∧
    (∀ a b, b ≤ a → (a ≤ i ∨ b ≤ i) →
      (tridiagRun ops house n st).matA a b =
        (tridiagIters ops house n st (i + 1)).matA a b) ∧
    (∀ k, k ≤ i →
      (tridiagRun ops house n st).hc k =
        (tridiagIters ops house n st (i + 1)).hc k) := by
  refine ⟨fun a b hba hb => ?_, fun k hk => ?_, fun a b hba hb => ?_,
    fun k hk => ?_⟩
  · exact tridiagIters_lower_frame ops house n st i m hm a b hba hb
  · exact tridiagIters_hc_frame ops house n st i m hm k hk
  · exact tridiagIters_lower_frame ops house n st i (n - 1) (by omega) a b hba hb
  · exact tridiagIters_hc_frame ops house n st i (n - 1) (by omega) k hk

theorem claim_C3_witness :
    0 < 3 - 1 ∧
      (tridiagIters rqOps wHouse 3 ⟨wMat3.entry, fun _ => 0⟩ 2).matA 1 0 =
        (tridiagIters rqOps wHouse 3 ⟨wMat3.entry, fun _ => 0⟩ 1).matA 1 0 :=
  ⟨by decide,
    (claim_C3 rqOps wHouse 3 ⟨wMat3.entry, fun _ => 0⟩ 0 2 (by decide)
      (by decide)).1 1 0 (by decide) (Or.inr (by decide))⟩

end ClaimsFrame

section ClaimsFacade

variable {K : Type} [CommRing K] [DecidableEq K]

/-- C5: while `m_isInitialized` is false every read accessor —
`householderCoefficients()`, `packedMatrix()`, `matrixQ()`, `matrixT()`,
`diagonal()` and `subDiagonal()` — fails its assertion-style contract check
(modelled as returning `none`) instead of returning a value; and on any state
produced by a successful `compute()` the assertion in each accessor passes
(each accessor returns a value). -/
theorem claim_C5 (ops : ScalarOps K) (house : ℕ → (ℕ → K) → (ℕ → K) × K × K)
    (t : Tri K) :
    (t.m_isInitialized = false →
      t.householderCoefficients = none ∧ t.packedMatrix = none ∧
      t.matrixQ ops = none ∧ t.matrixT ops = none ∧
      t.diagonal ops = none ∧ t.subDiagonal ops = none) ∧
    (∀ (A : MatBuf K) (t' : Tri K), Tri.compute ops house t A = some t' →
      t'.householderCoefficients.isSome = true ∧
      t'.packedMatrix.isSome = true ∧ (t'.matrixQ ops).isSome = true ∧
      (t'.matrixT ops).isSome = true ∧ (t'.diagonal ops).isSome = true ∧
      (t'.subDiagonal ops).isSome = true) := by
  constructor
  · intro hf
    refine ⟨?_, ?_, ?_, ?_, ?_, ?_⟩ <;>
      simp [Tri.householderCoefficients, Tri.packedMatrix, Tri.matrixQ,
        Tri.matrixT, Tri.diagonal, Tri.subDiagonal, hf]
  · intro A t' hc
    rw [Tri.compute] at hc
    split_ifs at hc with hok
    · cases hc
      refine ⟨?_, ?_, ?_, ?_, ?_, ?_⟩ <;> rfl

theorem claim_C5_witness :
    ((⟨wMat2, wVec1, false⟩ : Tri Rq).packedMatrix = none) ∧
      ((Tri.computeRun rqOps wHouse ⟨wMat2, wVec1, false⟩
          wMat2).packedMatrix.isSome = true) := by
  refine ⟨((claim_C5 rqOps wHouse ⟨wMat2, wVec1, false⟩).1 rfl).2.1, ?_⟩
  refine (((claim_C5 rqOps wHouse ⟨wMat2, wVec1, false⟩).2 wMat2
    (Tri.computeRun rqOps wHouse ⟨wMat2, wVec1, false⟩ wMat2) ?_)).2.1
  rw [Tri.compute, if_pos (by decide)]

/-- C6: the two-argument `ei_tridiagonalization_inplace(matA, hCoeffs)` passes
its assertion exactly when `matA` is square and `hCoeffs` has exactly
`matA.rows()-1` entries (as signed-index arithmetic); the four-argument
dispatcher passes its assertion exactly when the matrix is square of order
`n`, `diag.size() == n` and `subdiag.size() == n-1`; and on success the
dispatcher hands back `diag` and `subdiag` buffers of unchanged sizes (they
are never resized). -/
theorem claim_C6 (ops : ScalarOps K) (house : ℕ → (ℕ → K) → (ℕ → K) × K × K)
    (matQ : MatBuf K → VecBuf K → MatBuf K) :
    (∀ (matA : MatBuf K) (hCoeffs : VecBuf K),
      (eiInplace ops house matA hCoeffs).isSome = true ↔
        (matA.rows = matA.cols ∧
          (hCoeffs.size : ℤ) = (matA.rows : ℤ) - 1)) ∧
    (∀ (mat : MatBuf K) (diag subdiag : VecBuf K) (extractQ : Bool),
      ((eiInplace4 ops house matQ mat diag subdiag extractQ).isSome = true ↔
        (mat.cols = mat.rows ∧ diag.size = mat.rows ∧
          (subdiag.size : ℤ) = (mat.rows : ℤ) - 1)) ∧
      (∀ res, eiInplace4 ops house matQ mat diag subdiag extractQ = some res →
        res.2.1.size = diag.size ∧ res.2.2.size = subdiag.size)) := by
  constructor
  · intro matA hCoeffs
    rw [eiInplace]
    constructor
    · intro h
      split_ifs at h with hok
      · rcases hok with ⟨h1, h2⟩
        exact ⟨h1, by omega⟩
      · simp at h
    · intro h
      rcases h with ⟨h1, h2⟩
      rw [if_pos (show inplaceOK matA hCoeffs from ⟨h1, by omega⟩)]
      rfl
  · intro mat diag subdiag extractQ
    constructor
    · rw [eiInplace4]
      constructor
      · intro h
        split_ifs at h with hok
        · rcases hok with ⟨h1, h2, h3⟩
          exact ⟨h1, h2, h3⟩
        · simp at h
      · intro h
        rcases h with ⟨h1, h2, h3⟩
        rw [if_pos ⟨h1, h2, h3⟩, selGeneral,
          if_pos (show inplaceOK mat ⟨mat.cols - 1, fun _ => 0⟩ from
            ⟨by omega, by simp only; omega⟩)]
        rfl
    · intro res hres
      rw [eiInplace4] at hres
      split_ifs at hres with hok
      rw [selGeneral] at hres
      split_ifs at hres with hok2
      cases hres
      exact ⟨rfl, rfl⟩

theorem claim_C6_witness :
    (eiInplace rqOps wHouse wMat2 wVec1).isSome = true ∧
      (eiInplace4 rqOps wHouse wMatQ wMat3 ⟨3, fun _ => 0⟩ ⟨2, fun _ => 0⟩
        false).isSome = true :=
  ⟨((claim_C6 rqOps wHouse wMatQ).1 wMat2 wVec1).mpr (by decide),
    (((claim_C6 rqOps wHouse wMatQ).2 wMat3 ⟨3, fun _ => 0⟩ ⟨2, fun _ => 0⟩
      false).1).mpr (by decide)⟩

/-- C9: the 1x1 specialization sets `diag[0]` to the real part of the single
entry `mat(0,0)`, leaves `subdiag` untouched, and sets the buffer entry to the
scalar 1 exactly when `extractQ` is requested; in particular `[[7]]` yields
diagonal `[7]` and the 1x1 identity as `Q`. -/
theorem claim_C9 (ops : ScalarOps K) (mat : MatBuf K)
    (diag subdiag : VecBuf K) (q : Bool) :
    ((sel1 ops mat diag subdiag q).2.1.entry 0 = ops.re (mat.entry 0 0) ∧
      (sel1 ops mat diag subdiag q).2.2 = subdiag ∧
      (q = true → (sel1 ops mat diag subdiag q).1.entry 0 0 = 1) ∧
      (q = false → (sel1 ops mat diag subdiag q).1.entry = mat.entry)) ∧
    ((sel1 rqOps ⟨1, 1, fun _ _ => 7⟩ ⟨1, fun _ => 0⟩ ⟨0, fun _ => 0⟩
        true).2.1.entry 0 = 7 ∧
      (sel1 rqOps ⟨1, 1, fun _ _ => 7⟩ ⟨1, fun _ => 0⟩ ⟨0, fun _ => 0⟩
        true).1.entry 0 0 = 1) := by
  refine ⟨⟨rfl, rfl, fun hq => ?_, fun hq => ?_⟩, by decide, by decide⟩
  · subst hq; rfl
  · subst hq; rfl

theorem claim_C9_witness :
    (sel1 rqOps wMat2 wVec1 wVec1 false).2.1.entry 0 =
      rqOps.re (wMat2.entry 0 0) :=
  (claim_C9 rqOps wMat2 wVec1 wVec1 false).1.1

/-- C10: on a 1x1 input the computing constructor allocates a coefficient
vector of length `(cols > 1 ? cols-1 : 1) = 1`, so the inner assertion
`matA.rows() == hCoeffs.size()+1` (i.e. `1 == 2`) fails and the constructor
aborts; `compute()` instead resizes the coefficient vector to `rows-1 = 0`
entries, the same assertion passes and the computation succeeds. -/
theorem claim_C10 (ops : ScalarOps K) (house : ℕ → (ℕ → K) → (ℕ → K) × K × K)
    (A : MatBuf K) (h1 : A.rows = 1) (h2 : A.cols = 1) (t : Tri K) :
    (if 1 < A.cols then A.cols - 1 else 1) = 1 ∧
    Tri.ctor ops house A = none ∧
    Tri.compute ops house t A = some (Tri.computeRun ops house t A) ∧
    (Tri.computeRun ops house t A).m_hCoeffs.size = 0 := by
  refine ⟨by rw [h2]; norm_num, ?_, ?_, ?_⟩
  · rw [Tri.ctor, if_neg]
    intro hok
    rcases hok with ⟨_, hsz⟩
    rw [h1, h2] at hsz
    simp at hsz
  · rw [Tri.compute, if_pos ⟨by rw [h1, h2], by rw [h1]⟩]
  · show A.rows - 1 = 0
    rw [h1]

theorem claim_C10_witness :
    Tri.ctor rqOps wHouse ⟨1, 1, fun _ _ => 7⟩ = none ∧
      Tri.compute rqOps wHouse ⟨wMat2, wVec1, false⟩ ⟨1, 1, fun _ _ => 7⟩ =
        some (Tri.computeRun rqOps wHouse ⟨wMat2, wVec1, false⟩
          ⟨1, 1, fun _ _ => 7⟩) :=
  ⟨(claim_C10 rqOps wHouse ⟨1, 1, fun _ _ => 7⟩ rfl rfl
      ⟨wMat2, wVec1, false⟩).2.1,
    (claim_C10 rqOps wHouse ⟨1, 1, fun _ _ => 7⟩ rfl rfl
      ⟨wMat2, wVec1, false⟩).2.2.1⟩

end ClaimsFacade

section ClaimsSelectors

variable {K : Type} [CommRing K] [DecidableEq K]

/-- C8: on a 3x3 selfadjoint input with `A(2,0) = 0` — so that
`v1norm2 = |A(2,0)|²` is negligible relative to 1 under the threshold
predicate — the 3x3 specialization takes the already-tridiagonal branch:
the diagonal entries are set to the real parts of `A(0,0)`, `A(1,1)`,
`A(2,2)`, the sub-diagonal entries to the real parts of `A(1,0)`, `A(2,1)`,
and when explicit `Q` is requested the buffer is set to the identity. -/
theorem claim_C8 (ops : ScalarOps K) (isMuch : K → K → Bool) (sqrt : K → K)
    (mat : MatBuf K) (diag subdiag : VecBuf K) (h20 : mat.entry 2 0 = 0)
    (hneg : isMuch (abs2 ops (mat.entry 2 0)) 1 = true) (extractQ : Bool) :
    (sel3 ops isMuch sqrt mat diag subdiag extractQ).2.1.entry 0 =
      ops.re (mat.entry 0 0) ∧
    (sel3 ops isMuch sqrt mat diag subdiag extractQ).2.1.entry 1 =
      ops.re (mat.entry 1 1) ∧
    (sel3 ops isMuch sqrt mat diag subdiag extractQ).2.1.entry 2 =
      ops.re (mat.entry 2 2) ∧
    (sel3 ops isMuch sqrt mat diag subdiag extractQ).2.2.entry 0 =
      ops.re (mat.entry 1 0) ∧
    (sel3 ops isMuch sqrt mat diag subdiag extractQ).2.2.entry 1 =
      ops.re (mat.entry 2 1) ∧
    (extractQ = true → ∀ a b, a < 3 → b < 3 →
      (sel3 ops isMuch sqrt mat diag subdiag extractQ).1.entry a b =
        if a = b then 1 else 0) := by
  refine ⟨?_, ?_, ?_, ?_, ?_, ?_⟩
  · simp [sel3, hneg]
  · simp [sel3, hneg]
  · simp [sel3, hneg]
  · simp [sel3, hneg]
  · simp [sel3, hneg]
  · intro hq a b ha hb
    subst hq
    simp only [sel3, hneg]
    simp only [if_true]
    rw [if_pos ⟨ha, hb⟩]

theorem claim_C8_witness :
    wMat3.entry 2 0 = -2 ∧
      (∀ (m0 : MatBuf Rq), m0 = ⟨3, 3, fun a b =>
          if a = 2 ∧ b = 0 then 0 else if a = 0 ∧ b = 2 then 0
          else wMat3.entry a b⟩ →
        (sel3 rqOps exactIsMuch (fun _ => 0) m0 ⟨3, fun _ => 0⟩
            ⟨2, fun _ => 0⟩ true).2.1.entry 1 = rqOps.re (m0.entry 1 1) ∧
          (sel3 rqOps exactIsMuch (fun _ => 0) m0 ⟨3, fun _ => 0⟩
            ⟨2, fun _ => 0⟩ true).1.entry 1 0 = 0) := by
  refine ⟨by decide, fun m0 hm0 => ?_⟩
  subst hm0
  have h := claim_C8 rqOps exactIsMuch (fun _ => 0)
    ⟨3, 3, fun a b =>
      if a = 2 ∧ b = 0 then 0 else if a = 0 ∧ b = 2 then 0
      else wMat3.entry a b⟩
    ⟨3, fun _ => 0⟩ ⟨2, fun _ => 0⟩ (by decide) (by decide) true
  refine ⟨h.2.1, ?_⟩
  rw [h.2.2.2.2.2 rfl 1 0 (by decide) (by decide)]
  decide

/-- The 3x3 real symmetric matrix `[[4,1,-2],[1,2,0],[-2,0,3]]` of the
concrete scenario, over the exact field `ℚ(√5)`. -/
def c7mat : MatBuf Q5 :=
  ⟨3, 3, fun a b =>
    if a = 0 ∧ b = 0 then 4 else if a = 0 ∧ b = 1 then 1
    else if a = 0 ∧ b = 2 then -2 else if a = 1 ∧ b = 0 then 1
    else if a = 1 ∧ b = 1 then 2 else if a = 1 ∧ b = 2 then 0
    else if a = 2 ∧ b = 0 then -2 else if a = 2 ∧ b = 1 then 0
    else if a = 2 ∧ b = 2 then 3 else 0⟩

/-- The general reduction path (the generic
`ei_tridiagonalization_inplace_selector`) run on the scenario matrix, with the
spec-modelled reflector primitive. -/
def c7general : MatBuf Q5 × VecBuf Q5 × VecBuf Q5 :=
  selGeneralRun q5Ops (makeHouseholder q5Ops q5Sqrt) (fun m _ => m) c7mat
    ⟨3, fun _ => 0⟩ ⟨2, fun _ => 0⟩ false

/-- The fixed 3x3 path (`ei_tridiagonalization_inplace_selector<MatrixType,3>`)
run on the scenario matrix. -/
def c7fixed : MatBuf Q5 × VecBuf Q5 × VecBuf Q5 :=
  sel3 q5Ops exactIsMuch q5Sqrt c7mat ⟨3, fun _ => 0⟩ ⟨2, fun _ => 0⟩ false

/-- C7: on the 3x3 real symmetric input `[[4,1,-2],[1,2,0],[-2,0,3]]`, the
general reduction path completes (its assertion accepts the buffers) and both
it and the fixed 3x3 path produce `subdiagonal[0] = √5`, and the two paths
produce identical diagonal and subdiagonal vectors (computed exactly in
`ℚ(√5)`). -/
theorem claim_C7 :
    selGeneral q5Ops (makeHouseholder q5Ops q5Sqrt) (fun m _ => m) c7mat
        ⟨3, fun _ => 0⟩ ⟨2, fun _ => 0⟩ false = some c7general ∧
    c7general.2.2.entry 0 = Q5.sqrt5 ∧
    c7fixed.2.2.entry 0 = Q5.sqrt5 ∧
    c7general.2.1.size = c7fixed.2.1.size ∧
    c7general.2.2.size = c7fixed.2.2.size ∧
    (∀ k, k < 3 → c7general.2.1.entry k = c7fixed.2.1.entry k) ∧
    (∀ k, k < 2 → c7general.2.2.entry k = c7fixed.2.2.entry k) :=
  ⟨rfl, by decide, by decide, rfl, rfl, by decide, by decide⟩

end ClaimsSelectors

section ClaimC1

variable {K : Type} [CommRing K] [DecidableEq K]

/-- The auxiliary vector of the claim's step description, written as the spec
words it: `p = conj(h) · (S · v)`, with `S` the selfadjoint view of the
trailing block and `v` the reflector vector with its implicit leading 1. -/
def specP (ops : ScalarOps K) (house : ℕ → (ℕ → K) → (ℕ → K) × K × K)
    (n i : ℕ) (st : TriState K) : ℕ → K := fun a =>
  ops.conj (stepHouse house n i st).2.1 *
    ∑ b in Finset.range (n - i - 1),
      stepS ops house n i st a b * stepV house n i st b

/-- The corrected auxiliary vector of the claim's step description:
`p' = p - conj(h) · 0.5 · (pᵗ·v) · v`. -/
def specP' (ops : ScalarOps K) (house : ℕ → (ℕ → K) → (ℕ → K) × K × K)
    (n i : ℕ) (st : TriState K) : ℕ → K := fun a =>
  specP ops house n i st a -
    ops.conj (stepHouse house n i st).2.1 * ops.inv 2 *
      (∑ k in Finset.range (n - i - 1),
        specP ops house n i st k * stepV house n i st k) *
      stepV house n i st a

/-- The loop body as the claim words it, for real scalars: after the reflector
write-back and the planted 1 (`stepA1`), compute `p = conj(h) · (S · v)`,
correct it to `p' = p - conj(h) · 0.5 · (pᵗ·v) · v`, apply the rank-2 update
`S += -1 · (v·pᵗ + p·vᵗ)` to the trailing lower triangle, overwrite entry
`(i+1, i)` with `beta`, and store `h` at coefficient index `i` (the corrected
vector lives in the coefficient tail, where the code stores it). -/
def specLoopBody (ops : ScalarOps K) (house : ℕ → (ℕ → K) → (ℕ → K) × K × K)
    (n i : ℕ) (st : TriState K) : TriState K :=
  ⟨fun a b =>
    if a = i + 1 ∧ b = i then (stepHouse house n i st).2.2
    else if i + 1 ≤ b ∧ b ≤ a ∧ a < n then
      stepA1 house n i st a b +
        -1 * (stepV house n i st (a - (i + 1)) *
                specP' ops house n i st (b - (i + 1)) +
              specP' ops house n i st (a - (i + 1)) *
                stepV house n i st (b - (i + 1)))
    else stepA1 house n i st a b,
   fun k =>
    if k = i then (stepHouse house n i st).2.1
    else if i ≤ k ∧ k < n - 1 then specP' ops house n i st (k - i)
    else st.hc k⟩

theorem stepP0_eq_specP (ops : ScalarOps K)
    (house : ℕ → (ℕ → K) → (ℕ → K) × K × K) (n i : ℕ) (st : TriState K)
    (a : ℕ) : stepP0 ops house n i st a = specP ops house n i st a := by
  rw [stepP0, specP, Finset.mul_sum]
  refine Finset.sum_congr rfl fun b _ => ?_
  ring

theorem stepDot_eq_spec (ops : ScalarOps K)
    (house : ℕ → (ℕ → K) → (ℕ → K) × K × K) (n i : ℕ) (st : TriState K) :
    stepDot ops house n i st =
      ∑ k in Finset.range (n - i - 1),
        specP ops house n i st k * stepV house n i st k := by
  rw [stepDot]
  refine Finset.sum_congr rfl fun k hk => ?_
  have hk' : k < n - i - 1 := Finset.mem_range.mp hk
  rw [stepHc0, if_pos ⟨by omega, by omega⟩,
    show i + k - i = k from by omega, stepP0_eq_specP]

theorem stepHc1_eq_specP' (ops : ScalarOps K)
    (house : ℕ → (ℕ → K) → (ℕ → K) × K × K) (n i : ℕ) (st : TriState K)
    (k : ℕ) (hik : i ≤ k) (hk : k < n - 1) :
    stepHc1 ops house n i st k = specP' ops house n i st (k - i) := by
  rw [stepHc1, if_pos ⟨hik, hk⟩, stepHc0, if_pos ⟨hik, hk⟩,
    stepP0_eq_specP, stepDot_eq_spec, specP']
  ring

/-- C1: for a buffer of order `n ≥ 2` and a column index `i ≤ n-2`, the loop
body of the general in-place reduction is exactly the claim's description —
it computes `p = conj(h) · (S · v)` with the implicit leading 1 planted at
`(i+1, i)`, corrects `p` by subtracting `conj(h) · 0.5 · (pᵗ·v) · v`, applies
the rank-2 update `S += -1 · (v·pᵗ + p·vᵗ)` to the trailing block, and finally
overwrites entry `(i+1, i)` with `beta` and coefficient entry `i` with `h`.
Stated for real scalars (`conj` is the identity), for which the claim's
transpose formulas are exact; holds for every reflector primitive. -/
theorem claim_C1 (ops : ScalarOps K) (house : ℕ → (ℕ → K) → (ℕ → K) × K × K)
    (hconj : ∀ x : K, ops.conj x = x) (n i : ℕ) (hn : 2 ≤ n) (hi : i ≤ n - 2)
    (st : TriState K) :
    (∀ a b, (tridiagStep ops house n i st).matA a b =
      (specLoopBody ops house n i st).matA a b) ∧
    (∀ k, (tridiagStep ops house n i st).hc k =
      (specLoopBody ops house n i st).hc k) := by
  constructor
  · intro a b
    show stepMatA ops house n i st a b = _
    rw [stepMatA, specLoopBody]
    simp only
    split_ifs with h1 h2
    · rfl
    · rcases h2 with ⟨hb1, hba, han⟩
      rw [hconj (stepHc1 ops house n i st (i + (b - (i + 1)))),
        hconj (stepV house n i st (b - (i + 1))),
        stepHc1_eq_specP' ops house n i st (i + (b - (i + 1))) (by omega)
          (by omega),
        stepHc1_eq_specP' ops house n i st (i + (a - (i + 1))) (by omega)
          (by omega),
        show i + (b - (i + 1)) - i = b - (i + 1) from by omega,
        show i + (a - (i + 1)) - i = a - (i + 1) from by omega]
    · rfl
  · intro k
    show stepHc2 ops house n i st k = _
    rw [stepHc2, specLoopBody]
    simp only
    split_ifs with h1 h2
    · rfl
    · exact stepHc1_eq_specP' ops house n i st k h2.1 h2.2
    · rw [stepHc1, if_neg h2, stepHc0, if_neg h2]

theorem claim_C1_witness :
    (∀ x : Rq, rqOps.conj x = x) ∧ 2 ≤ 3 ∧ 0 ≤ 3 - 2 ∧
      (tridiagStep rqOps wHouse 3 0 ⟨wMat3.entry, fun _ => 0⟩).matA 1 1 =
        (specLoopBody rqOps wHouse 3 0 ⟨wMat3.entry, fun _ => 0⟩).matA 1 1 ∧
      (tridiagStep rqOps wHouse 3 0 ⟨wMat3.entry, fun _ => 0⟩).hc 0 =
        (specLoopBody rqOps wHouse 3 0 ⟨wMat3.entry, fun _ => 0⟩).hc 0 :=
  ⟨fun _ => rfl, by omega, by omega,
    (claim_C1 rqOps wHouse (fun _ => rfl) 3 0 (by omega) (by omega)
      ⟨wMat3.entry, fun _ => 0⟩).1 1 1,
    (claim_C1 rqOps wHouse (fun _ => rfl) 3 0 (by omega) (by omega)
      ⟨wMat3.entry, fun _ => 0⟩).2 0⟩

end ClaimC1

section ClaimC4

variable {K : Type} [CommRing K] [DecidableEq K]

theorem conj_zero_of_add (ops : ScalarOps K)
    (hadd : ∀ x y, ops.conj (x + y) = ops.conj x + ops.conj y) :
    ops.conj 0 = 0 := by
  have h := hadd 0 0
  rw [add_zero] at h
  exact (self_eq_add_left.mp h)

theorem conj_neg_of_add (ops : ScalarOps K)
    (hadd : ∀ x y, ops.conj (x + y) = ops.conj x + ops.conj y) (x : K) :
    ops.conj (-x) = -ops.conj x := by
  have h := hadd (-x) x
  rw [neg_add_cancel, conj_zero_of_add ops hadd] at h
  exact eq_neg_of_add_eq_zero_left h.symm

/-- A selfadjoint rank-2 update `s + -1·(x·conj y + y·conj x)` of a real
diagonal entry `s` is again real. -/
theorem conj_rank2_real (ops : ScalarOps K)
    (hadd : ∀ x y, ops.conj (x + y) = ops.conj x + ops.conj y)
    (hmul : ∀ x y, ops.conj (x * y) = ops.conj x * ops.conj y)
    (hinvol : ∀ x, ops.conj (ops.conj x) = x)
    (s x y : K) (hs : ops.conj s = s) :
    ops.conj (s + -1 * (x * ops.conj y + y * ops.conj x)) =
      s + -1 * (x * ops.conj y + y * ops.conj x) := by
  rw [hadd, hs, neg_one_mul, conj_neg_of_add ops hadd, hadd, hmul, hmul,
    hinvol, hinvol]
  ring

/-- The buffer write-backs of one iteration never touch a diagonal entry
except through the rank-2 update. -/
theorem stepA1_diag (house : ℕ → (ℕ → K) → (ℕ → K) × K × K) (n i : ℕ)
    (st : TriState K) (a : ℕ) : stepA1 house n i st a a = st.matA a a := by
  rw [stepA1]
  split_ifs <;> first | rfl | omega

/-- A loop iteration keeps every diagonal entry real: the rank-2 update adds
`-1·(v_a·conj(p_a) + p_a·conj(v_a))`, which is self-conjugate. -/
theorem stepMatA_diag_real (ops : ScalarOps K)
    (house : ℕ → (ℕ → K) → (ℕ → K) × K × K)
    (hadd : ∀ x y, ops.conj (x + y) = ops.conj x + ops.conj y)
    (hmul : ∀ x y, ops.conj (x * y) = ops.conj x * ops.conj y)
    (hinvol : ∀ x, ops.conj (ops.conj x) = x)
    (n i : ℕ) (st : TriState K)
    (hdiag : ∀ a, ops.conj (st.matA a a) = st.matA a a) (a : ℕ) :
    ops.conj (stepMatA ops house n i st a a) = stepMatA ops house n i st a a := by
  rw [stepMatA]
  split_ifs with h1 h2
  · omega
  · rw [stepA1_diag]
    exact conj_rank2_real ops hadd hmul hinvol _ _ _ (hdiag a)
  · rw [stepA1_diag]
    exact hdiag a

/-- All diagonal entries stay real through any number of loop iterations. -/
theorem tridiagIters_diag_real (ops : ScalarOps K)
    (house : ℕ → (ℕ → K) → (ℕ → K) × K × K)
    (hadd : ∀ x y, ops.conj (x + y) = ops.conj x + ops.conj y)
    (hmul : ∀ x y, ops.conj (x * y) = ops.conj x * ops.conj y)
    (hinvol : ∀ x, ops.conj (ops.conj x) = x)
    (n : ℕ) (st : TriState K)
    (hdiag : ∀ a, ops.conj (st.matA a a) = st.matA a a) (m a : ℕ) :
    ops.conj ((tridiagIters ops house n st m).matA a a) =
      (tridiagIters ops house n st m).matA a a := by
  induction m generalizing a with
  | zero => exact hdiag a
  | succ m ih =>
    exact stepMatA_diag_real ops house hadd hmul hinvol n m
      (tridiagIters ops house n st m) ih a

/-- At the end of iteration `i`, entry `(i+1, i)` holds the reflector's
`beta`. -/
theorem stepMatA_beta (ops : ScalarOps K)
    (house : ℕ → (ℕ → K) → (ℕ → K) × K × K) (n i : ℕ) (st : TriState K) :
    stepMatA ops house n i st (i + 1) i = (stepHouse house n i st).2.2 := by
  rw [stepMatA, if_pos ⟨rfl, rfl⟩]

/-- After `m` iterations every sub-diagonal entry `(c+1, c)` with `c < m` is a
`beta` produced by the reflector primitive, hence real whenever the primitive
returns real `beta` values (in the source `beta` has type `RealScalar`). -/
theorem tridiagIters_subdiag_real (ops : ScalarOps K)
    (house : ℕ → (ℕ → K) → (ℕ → K) × K × K)
    (hbeta : ∀ r x, ops.conj ((house r x).2.2) = (house r x).2.2)
    (n : ℕ) (st : TriState K) (m c : ℕ) (hc : c < m) :
    ops.conj ((tridiagIters ops house n st m).matA (c + 1) c) =
      (tridiagIters ops house n st m).matA (c + 1) c := by
  induction m with
  | zero => omega
  | succ m ih =>
    rcases Nat.lt_or_ge c m with hlt | hge
    · rw [tridiagIters,
        tridiagStep_colFrame ops house n m _ (c + 1) c hlt]
      exact ih hlt
    · have hcm : c = m := by omega
      subst hcm
      show ops.conj
          (stepMatA ops house n c (tridiagIters ops house n st c) (c + 1) c) =
        stepMatA ops house n c (tridiagIters ops house n st c) (c + 1) c
      rw [stepMatA_beta]
      exact hbeta _ _

theorem matrixTfun_outside (ops : ScalarOps K) (n : ℕ) (P : ℕ → ℕ → K)
    (r c : ℕ) (hr : r < n) (hc : c < n) (hband : r + 2 ≤ c ∨ c + 2 ≤ r) :
    matrixTfun ops n P r c = 0 := by
  rw [matrixTfun, if_pos ⟨by omega, hband⟩]

theorem matrixTfun_super (ops : ScalarOps K) (n : ℕ) (P : ℕ → ℕ → K)
    (i : ℕ) (hi : i + 1 < n) :
    matrixTfun ops n P i (i + 1) = ops.conj (ops.re (P (i + 1) i)) := by
  rw [matrixTfun, if_neg (by omega), if_pos ⟨rfl, hi⟩]

theorem matrixTfun_diag (ops : ScalarOps K) (n : ℕ) (P : ℕ → ℕ → K) (a : ℕ) :
    matrixTfun ops n P a a = P a a := by
  rw [matrixTfun, if_neg (by omega), if_neg (by omega)]

theorem matrixTfun_sub (ops : ScalarOps K) (n : ℕ) (P : ℕ → ℕ → K) (c : ℕ) :
    matrixTfun ops n P (c + 1) c = P (c + 1) c := by
  rw [matrixTfun, if_neg (by omega), if_neg (by omega)]

/-- C4: for a decomposition initialized by `compute()` from a selfadjoint
input (the input's diagonal is real; the reflector primitive returns real
`beta` values, as its `RealScalar` typing guarantees; conjugation is an
additive, multiplicative involution fixing real parts — all satisfied by
complex scalars), the matrix returned by `matrixT()` is zero outside the
tridiagonal band, its super-diagonal entry `(i, i+1)` is the conjugated real
sub-diagonal value at `(i+1, i)` of the packed buffer, and every band entry
(diagonal, sub-diagonal and super-diagonal) is real. -/
theorem claim_C4 (ops : ScalarOps K) (house : ℕ → (ℕ → K) → (ℕ → K) × K × K)
    (hadd : ∀ x y, ops.conj (x + y) = ops.conj x + ops.conj y)
    (hmul : ∀ x y, ops.conj (x * y) = ops.conj x * ops.conj y)
    (hinvol : ∀ x, ops.conj (ops.conj x) = x)
    (hre : ∀ x, ops.conj (ops.re x) = ops.re x)
    (hbeta : ∀ r x, ops.conj ((house r x).2.2) = (house r x).2.2)
    (t : Tri K) (A : MatBuf K) (hsq : A.rows = A.cols) (hpos : 1 ≤ A.rows)
    (hdiag : ∀ a, ops.conj (A.entry a a) = A.entry a a) :
    Tri.compute ops house t A = some (Tri.computeRun ops house t A) ∧
    Tri.matrixT ops (Tri.computeRun ops house t A) =
      some ⟨A.rows, A.cols, matrixTfun ops A.rows
        (Tri.computeRun ops house t A).m_matrix.entry⟩ ∧
    (∀ r c, r < A.rows → c < A.rows → (r + 2 ≤ c ∨ c + 2 ≤ r) →
      matrixTfun ops A.rows
        (Tri.computeRun ops house t A).m_matrix.entry r c = 0) ∧
    (∀ i, i + 1 < A.rows →
      matrixTfun ops A.rows
          (Tri.computeRun ops house t A).m_matrix.entry i (i + 1) =
        ops.conj (ops.re
          ((Tri.computeRun ops house t A).m_matrix.entry (i + 1) i))) ∧
    (∀ r c, r < A.rows → c < A.rows → (r = c ∨ r = c + 1 ∨ c = r + 1) →
      ops.conj (matrixTfun ops A.rows
          (Tri.computeRun ops house t A).m_matrix.entry r c) =
        matrixTfun ops A.rows
          (Tri.computeRun ops house t A).m_matrix.entry r c) := by
  refine ⟨?_, rfl, ?_, ?_, ?_⟩
  · rw [Tri.compute, if_pos (show computeOK A from ⟨hsq, hpos⟩)]
  · intro r c hr hc hband
    exact matrixTfun_outside ops A.rows _ r c hr hc hband
  · intro i hi
    exact matrixTfun_super ops A.rows _ i hi
  · intro r c hr hc hband
    rcases hband with hband | hband | hband
    · subst hband
      rw [matrixTfun_diag]
      exact tridiagIters_diag_real ops house hadd hmul hinvol A.rows
        ⟨A.entry, t.m_hCoeffs.entry⟩ hdiag (A.rows - 1) r
    · subst hband
      rw [matrixTfun_sub]
      exact tridiagIters_subdiag_real ops house hbeta A.rows
        ⟨A.entry, t.m_hCoeffs.entry⟩ (A.rows - 1) c (by omega)
    · subst hband
      rw [matrixTfun_super ops A.rows _ r (by omega), hinvol, hre]

/-- A concrete 2x2 Hermitian input over the complex rationals, with a genuinely
complex off-diagonal entry `i`. -/
def cqA : MatBuf CQ :=
  ⟨2, 2, fun a b =>
    if a = 0 ∧ b = 0 then 2 else if a = 1 ∧ b = 1 then 3
    else if a = 1 ∧ b = 0 then ⟨0, 1⟩ else if a = 0 ∧ b = 1 then ⟨0, -1⟩
    else 0⟩

/-- A reflector stand-in over the complex rationals returning real `beta`
values (`beta = re(x 0)`), as the source's `RealScalar` typing of `beta`
guarantees for the real primitive. -/
def cqHouse : ℕ → (ℕ → CQ) → (ℕ → CQ) × CQ × CQ :=
  fun _ x => (x, 0, CQ.re (x 0))

theorem claim_C4_witness :
    Tri.compute cqOps cqHouse ⟨cqA, ⟨1, fun _ => 0⟩, false⟩ cqA =
      some (Tri.computeRun cqOps cqHouse ⟨cqA, ⟨1, fun _ => 0⟩, false⟩ cqA) ∧
    cqOps.conj (matrixTfun cqOps cqA.rows
        (Tri.computeRun cqOps cqHouse ⟨cqA, ⟨1, fun _ => 0⟩, false⟩
          cqA).m_matrix.entry 0 1) =
      matrixTfun cqOps cqA.rows
        (Tri.computeRun cqOps cqHouse ⟨cqA, ⟨1, fun _ => 0⟩, false⟩
          cqA).m_matrix.entry 0 1 ∧
    cqOps.conj (matrixTfun cqOps cqA.rows
        (Tri.computeRun cqOps cqHouse ⟨cqA, ⟨1, fun _ => 0⟩, false⟩
          cqA).m_matrix.entry 1 0) =
      matrixTfun cqOps cqA.rows
        (Tri.computeRun cqOps cqHouse ⟨cqA, ⟨1, fun _ => 0⟩, false⟩
          cqA).m_matrix.entry 1 0 := by
  have h := claim_C4 cqOps cqHouse CQ.conj_add CQ.conj_mul CQ.conj_conj
    CQ.conj_re (fun r x => CQ.conj_re (x 0)) ⟨cqA, ⟨1, fun _ => 0⟩, false⟩
    cqA rfl (by decide)
    (by
      intro a
      show CQ.conj (cqA.entry a a) = cqA.entry a a
      rw [cqA]
      simp only
      split_ifs <;> first | decide | omega)
  exact ⟨h.1, h.2.2.2.2 0 1 (by decide) (by decide) (Or.inr (Or.inr rfl)),
    h.2.2.2.2 1 0 (by decide) (by decide) (Or.inr (Or.inl rfl))⟩

end ClaimC4
